import Mathlib

/-!
Verification of the persistent cons-list library (src/lib.rs).

The Rust type `List<A>` is a reference-counted handle `Rc<BaseList<A>>`
around the node enum `BaseList<A> { Cons(A, List<A>), Nil }`.  In a pure
embedding the `Rc` handle is erased (cloning a handle is the identity and
two handles to the same node are the same value), so the inductive type
`BaseList` below plays the role of both the node enum and the list type.
Every operation is transcribed from src/lib.rs; panics are modelled as
`none`, the hasher is an abstract state threaded through a feed function,
and iterators are modelled by the stream of values their `next` yields.
-/

namespace ConsList

/-- The node enum `BaseList<A> { Cons(A, List<A>), Nil }` (src/lib.rs
lines 33-36), with the `Rc` wrapper of `List<A>` erased. -/
inductive BaseList (A : Type) where
  | Cons : A → BaseList A → BaseList A
  | Nil : BaseList A
deriving DecidableEq

/-- Rust `pub fn cons<A>(head: A, tail: List<A>) -> List<A>` (src/lib.rs 47-49):
wraps `Cons(head, tail)` in a fresh handle. -/
def cons {A : Type} (head : A) (tail : BaseList A) : BaseList A :=
  BaseList.Cons head tail

/-- Rust `pub fn nil<A>() -> List<A>` (src/lib.rs 52-54): the empty list. -/
def nil {A : Type} : BaseList A :=
  BaseList.Nil

/-- Method `List::head` (src/lib.rs 62-67): the first element; panics on the empty
list.  The panic is modelled as `none`. -/
def head {A : Type} : BaseList A → Option A
  | BaseList.Cons h _ => some h
  | BaseList.Nil => none

/-- Method `List::tail` (src/lib.rs 74-79): clone of the tail handle; panics on the
empty list.  The panic is modelled as `none`; cloning a handle is the
identity in the embedding. -/
def tail {A : Type} : BaseList A → Option (BaseList A)
  | BaseList.Cons _ t => some t
  | BaseList.Nil => none

/-- Method `List::head_opt` (src/lib.rs 83-88): the first element or `None`. -/
def head_opt {A : Type} : BaseList A → Option A
  | BaseList.Cons h _ => some h
  | BaseList.Nil => none

/-- Method `List::tail_opt` (src/lib.rs 92-97): the tail or `None`. -/
def tail_opt {A : Type} : BaseList A → Option (BaseList A)
  | BaseList.Cons _ t => some t
  | BaseList.Nil => none

/-- Method `List::is_empty` (src/lib.rs 100-105). -/
def is_empty {A : Type} : BaseList A → Bool
  | BaseList.Cons _ _ => false
  | BaseList.Nil => true

/-- The stream of elements yielded by `Iterator::next` on `Iter`
(src/lib.rs 145-157): on a `Cons` node `next` yields the head and advances
the cursor to the tail; on `Nil` it yields `None` and the stream ends. -/
def iterElems {A : Type} : BaseList A → List A
  | BaseList.Cons h t => h :: iterElems t
  | BaseList.Nil => []

/-- Method `List::len` (src/lib.rs 108-110): `self.iter().count()`. -/
def len {A : Type} (l : BaseList A) : Nat :=
  (iterElems l).length

/-- The loop of `List::rev` (src/lib.rs 118-128): `rest` is the cursor,
the accumulator `list` starts at `nil` and each iteration prepends a clone
of the current head. -/
def revLoop {A : Type} : BaseList A → BaseList A → BaseList A
  | BaseList.Nil, list => list
  | BaseList.Cons h t, list => revLoop t (cons h list)

/-- Method `List::rev` (src/lib.rs 118-128). -/
def rev {A : Type} (l : BaseList A) : BaseList A :=
  revLoop l nil

/-- Constructor `List::from_double_ended_iter` (src/lib.rs 131-137): `iter.rev()` yields
the input sequence back to front, and each element is prepended. -/
def from_double_ended_iter {A : Type} (iter : List A) : BaseList A :=
  iter.reverse.foldl (fun list elem => cons elem list) nil

/-- Constructor `FromIterator::from_iter` (src/lib.rs 168-173): collects the input into
a `Vec` (which preserves the element stream exactly) and delegates to
`from_double_ended_iter`. -/
def from_iter {A : Type} (iter : List A) : BaseList A :=
  from_double_ended_iter iter

/-- Trait impl `PartialEq::eq` (src/lib.rs 199-203): `self.iter().eq(other.iter())` —
Rust `Iterator::eq` walks both element streams in lockstep, comparing
yielded elements with the element `==` (here the parameter `beq`), and is
true iff both streams end together with all pairs equal. -/
def listEq {A : Type} (beq : A → A → Bool) : BaseList A → BaseList A → Bool
  | BaseList.Nil, BaseList.Nil => true
  | BaseList.Nil, BaseList.Cons _ _ => false
  | BaseList.Cons _ _, BaseList.Nil => false
  | BaseList.Cons h1 t1, BaseList.Cons h2 t2 => beq h1 h2 && listEq beq t1 t2

/-- Trait impl `Ord::cmp` (src/lib.rs 219-223): `self.iter().cmp(other.iter())` —
Rust `Iterator::cmp` walks both element streams in lockstep: both ending
means `Equal`, the left ending first `Less`, the right ending first
`Greater`, and otherwise the first non-`Equal` element comparison (the
parameter `f`, the element `Ord::cmp`) decides. -/
def cmp {A : Type} (f : A → A → Ordering) : BaseList A → BaseList A → Ordering
  | BaseList.Nil, BaseList.Nil => Ordering.eq
  | BaseList.Nil, BaseList.Cons _ _ => Ordering.lt
  | BaseList.Cons _ _, BaseList.Nil => Ordering.gt
  | BaseList.Cons h1 t1, BaseList.Cons h2 t2 =>
    match f h1 h2 with
    | Ordering.eq => cmp f t1 t2
    | o => o

/-- Trait impl `PartialOrd::partial_cmp` (src/lib.rs 213-217):
`self.iter().partial_cmp(other.iter())` — as `cmp` but the element
comparison (the parameter `f`) returns an optional ordering, and the first
result other than `some Equal` (including `none`) is returned. -/
def partCmp {A : Type} (f : A → A → Option Ordering) :
    BaseList A → BaseList A → Option Ordering
  | BaseList.Nil, BaseList.Nil => some Ordering.eq
  | BaseList.Nil, BaseList.Cons _ _ => some Ordering.lt
  | BaseList.Cons _ _, BaseList.Nil => some Ordering.gt
  | BaseList.Cons h1 t1, BaseList.Cons h2 t2 =>
    match f h1 h2 with
    | some Ordering.eq => partCmp f t1 t2
    | o => o

/-- Trait impl `Hash::hash` (src/lib.rs 207-211):
`self.iter().for_each(|elem| elem.hash(state))`.  The hasher is an abstract
state of type `H`; `hashElem a st` is the state after element `a` feeds its
hash into state `st`.  The list feeds exactly its elements, head to tail,
and nothing else. -/
def hashFold {A H : Type} (hashElem : A → H → H) (state : H) : BaseList A → H
  | BaseList.Nil => state
  | BaseList.Cons h t => hashFold hashElem (hashElem h state) t

/-- Trait impl `Display::fmt` (src/lib.rs 175-185): writes each element (rendered by
the parameter `s`) followed by `" :: "`, then writes `"Nil"`.  `Debug::fmt`
(187-197) is identical with the debug rendering of elements. -/
def display {A : Type} (s : A → String) : BaseList A → String
  | BaseList.Cons h t => s h ++ " :: " ++ display s t
  | BaseList.Nil => "Nil"

/-- Trait impl `Default::default` (src/lib.rs 225-229): the empty list. -/
def defaultList (A : Type) : BaseList A :=
  nil

/-- The element stream of a fold that prepends each element of `s` onto an
accumulator list: the result iterates as `s` reversed, then the accumulator. -/
theorem iterElems_foldl_cons {A : Type} (s : List A) (acc : BaseList A) :
    iterElems (s.foldl (fun list elem => cons elem list) acc)
      = s.reverse ++ iterElems acc := by
  induction s generalizing acc with
  | nil => simp
  | cons h t ih =>
    rw [List.foldl_cons, ih (cons h acc)]
    simp [cons, iterElems]

/-- The element stream of the `rev` loop: the part already consumed, reversed,
in front of the accumulator. -/
theorem iterElems_revLoop {A : Type} (l acc : BaseList A) :
    iterElems (revLoop l acc) = (iterElems l).reverse ++ iterElems acc := by
  induction l generalizing acc with
  | Nil => simp [revLoop, iterElems]
  | Cons h t ih => simp [revLoop, ih, cons, iterElems]

/-- Two lists with the same element stream are the same list. -/
theorem iterElems_inj {A : Type} :
    ∀ {l1 l2 : BaseList A}, iterElems l1 = iterElems l2 → l1 = l2 := by
  intro l1
  induction l1 with
  | Nil => intro l2 h; cases l2 with
    | Nil => rfl
    | Cons h2 t2 => simp [iterElems] at h
  | Cons h1 t1 ih => intro l2 h; cases l2 with
    | Nil => simp [iterElems] at h
    | Cons h2 t2 =>
      simp [iterElems] at h
      rw [h.1, ih h.2]

/-- Lemma: `listEq` is reflexive when the element comparison is. -/
theorem listEq_refl {A : Type} (beq : A → A → Bool)
    (hrefl : ∀ a, beq a a = true) : ∀ l : BaseList A, listEq beq l l = true := by
  intro l
  induction l with
  | Nil => rfl
  | Cons h t ih => simp [listEq, hrefl h, ih]

/-- C1: for every value `x` and list `l`, `cons(x, l).head()` returns `x`
and `cons(x, l).tail()` returns exactly the list `l` (in the embedding,
handle equality — the same underlying node). -/
theorem c1_cons_head_tail {A : Type} (x : A) (l : BaseList A) :
    head (cons x l) = some x ∧ tail (cons x l) = some l :=
  ⟨rfl, rfl⟩

/-- C2: the accessors `head` and `tail` panic (modelled as `none`) exactly on the empty
list; `head_opt` and `tail_opt` return `none` exactly on the empty list,
and on a non-empty list all four return the same head and tail values. -/
theorem c2_accessors {A : Type} (l : BaseList A) :
    (is_empty l = true →
      head l = none ∧ tail l = none ∧ head_opt l = none ∧ tail_opt l = none) ∧
    (is_empty l = false →
      ∃ h t, head l = some h ∧ head_opt l = some h ∧
        tail l = some t ∧ tail_opt l = some t) := by
  cases l with
  | Cons h t =>
    exact ⟨fun hc => by simp [is_empty] at hc,
      fun _ => ⟨h, t, rfl, rfl, rfl, rfl⟩⟩
  | Nil =>
    exact ⟨fun _ => ⟨rfl, rfl, rfl, rfl⟩, fun hc => by simp [is_empty] at hc⟩

/-- Witness for C2 at the lists `cons 1 nil` and `nil`. -/
theorem c2_accessors_witness :
    (∃ h t, head (cons (1 : Nat) nil) = some h ∧
      head_opt (cons (1 : Nat) nil) = some h ∧
      tail (cons (1 : Nat) nil) = some t ∧
      tail_opt (cons (1 : Nat) nil) = some t) ∧
    head (nil : BaseList Nat) = none ∧ tail (nil : BaseList Nat) = none ∧
    head_opt (nil : BaseList Nat) = none ∧
    tail_opt (nil : BaseList Nat) = none :=
  ⟨(c2_accessors (cons 1 nil)).2 rfl, (c2_accessors (nil : BaseList Nat)).1 rfl⟩

/-- C8: the list `nil` is empty with length `0`; `cons x l` is non-empty with length
`1 + len l`. -/
theorem c8_is_empty_len {A : Type} (x : A) (l : BaseList A) :
    is_empty (nil : BaseList A) = true ∧ is_empty (cons x l) = false ∧
    len (nil : BaseList A) = 0 ∧ len (cons x l) = 1 + len l := by
  refine ⟨rfl, rfl, rfl, ?_⟩
  simp [len, cons, iterElems, Nat.add_comm]

/-- C4: iterating the list built by `FromIterator::from_iter` or by
`from_double_ended_iter` from a finite input sequence `s` yields exactly
`s` in its original order. -/
theorem c4_round_trip {A : Type} (s : List A) :
    iterElems (from_iter s) = s ∧ iterElems (from_double_ended_iter s) = s := by
  have h : iterElems (from_double_ended_iter s) = s := by
    rw [from_double_ended_iter, iterElems_foldl_cons]
    simp [nil, iterElems]
  exact ⟨h, h⟩

/-- C5: the method `rev` returns a list whose element stream is the reverse of the
original (the original is a value and is untouched), reversal is an
involution up to both structural identity and list equality `==`, and
`nil.rev` is `nil`. -/
theorem c5_rev {A : Type} (beq : A → A → Bool)
    (hrefl : ∀ a, beq a a = true) (l : BaseList A) :
    iterElems (rev l) = (iterElems l).reverse ∧
    rev (rev l) = l ∧
    listEq beq (rev (rev l)) l = true ∧
    rev (nil : BaseList A) = nil := by
  have hstream : ∀ m : BaseList A, iterElems (rev m) = (iterElems m).reverse := by
    intro m
    simp [rev, iterElems_revLoop, nil, iterElems]
  have hinv : rev (rev l) = l := by
    apply iterElems_inj
    simp [hstream]
  exact ⟨hstream l, hinv, by rw [hinv]; exact listEq_refl beq hrefl l, rfl⟩

/-- Witness for C5 at the list `3 :: 2 :: 1 :: Nil` with `Nat` equality. -/
theorem c5_rev_witness :
    iterElems (rev (cons 3 (cons 2 (cons 1 nil)))) = [1, 2, 3] ∧
    rev (rev (cons 3 (cons 2 (cons 1 nil)))) = cons 3 (cons 2 (cons 1 nil)) ∧
    listEq (fun a b : Nat => a == b)
      (rev (rev (cons 3 (cons 2 (cons 1 nil)))))
      (cons 3 (cons 2 (cons 1 nil))) = true ∧
    rev (nil : BaseList Nat) = nil :=
  c5_rev (fun a b : Nat => a == b) (fun a => by simp)
    (cons 3 (cons 2 (cons 1 nil)))

/-- Lemma: `listEq` holds exactly when the two element streams are pairwise related
by the element comparison (which forces equal lengths). -/
theorem listEq_iff_forall₂ {A : Type} (beq : A → A → Bool) :
    ∀ l1 l2 : BaseList A, listEq beq l1 l2 = true ↔
      List.Forall₂ (fun a b => beq a b = true) (iterElems l1) (iterElems l2) := by
  intro l1 l2
  induction l1 generalizing l2 with
  | Nil => cases l2 with
    | Nil => simp [listEq, iterElems]
    | Cons h2 t2 => simp [listEq, iterElems]
  | Cons h1 t1 ih => cases l2 with
    | Nil => simp [listEq, iterElems]
    | Cons h2 t2 =>
      simp [listEq, iterElems, Bool.and_eq_true, ih t2]

/-- Lemma: `listEq` is symmetric when the element comparison is. -/
theorem listEq_symm {A : Type} (beq : A → A → Bool)
    (hsymm : ∀ a b, beq a b = true → beq b a = true) :
    ∀ l1 l2 : BaseList A, listEq beq l1 l2 = true → listEq beq l2 l1 = true := by
  intro l1 l2
  induction l1 generalizing l2 with
  | Nil => cases l2 with
    | Nil => intro h; exact h
    | Cons h2 t2 => intro h; simp [listEq] at h
  | Cons h1 t1 ih => cases l2 with
    | Nil => intro h; simp [listEq] at h
    | Cons h2 t2 =>
      intro h
      rw [listEq, Bool.and_eq_true] at h ⊢
      exact ⟨hsymm h1 h2 h.1, ih t2 h.2⟩

/-- Lemma: `listEq` is transitive when the element comparison is. -/
theorem listEq_trans {A : Type} (beq : A → A → Bool)
    (htrans : ∀ a b c, beq a b = true → beq b c = true → beq a c = true) :
    ∀ l1 l2 l3 : BaseList A, listEq beq l1 l2 = true →
      listEq beq l2 l3 = true → listEq beq l1 l3 = true := by
  intro l1 l2 l3
  induction l1 generalizing l2 l3 with
  | Nil =>
    cases l2 with
    | Nil => intro _ h23; exact h23
    | Cons h2 t2 => intro h12; simp [listEq] at h12
  | Cons h1 t1 ih =>
    cases l2 with
    | Nil => intro h12; simp [listEq] at h12
    | Cons h2 t2 =>
      cases l3 with
      | Nil => intro _ h23; simp [listEq] at h23
      | Cons h3 t3 =>
        intro h12 h23
        rw [listEq, Bool.and_eq_true] at h12 h23 ⊢
        exact ⟨htrans h1 h2 h3 h12.1 h23.1, ih t2 t3 h12.2 h23.2⟩

/-- C6: two lists are equal under `==` iff they have the same length and
comparison-equal elements at every position, in head-to-tail order; list
equality inherits reflexivity, symmetry and transitivity from the element
comparison; and the lists built as `cons "a" nil` at two independent call
sites are equal. -/
theorem c6_equality {A : Type} (beq : A → A → Bool)
    (hrefl : ∀ a, beq a a = true)
    (hsymm : ∀ a b, beq a b = true → beq b a = true)
    (htrans : ∀ a b c, beq a b = true → beq b c = true → beq a c = true) :
    (∀ l1 l2 : BaseList A, listEq beq l1 l2 = true ↔
      (len l1 = len l2 ∧
        ∀ (i : Nat) (h1 : i < (iterElems l1).length)
          (h2 : i < (iterElems l2).length),
          beq ((iterElems l1).get ⟨i, h1⟩) ((iterElems l2).get ⟨i, h2⟩)
            = true)) ∧
    (∀ l : BaseList A, listEq beq l l = true) ∧
    (∀ l1 l2 : BaseList A,
      listEq beq l1 l2 = true → listEq beq l2 l1 = true) ∧
    (∀ l1 l2 l3 : BaseList A, listEq beq l1 l2 = true →
      listEq beq l2 l3 = true → listEq beq l1 l3 = true) ∧
    listEq (fun a b : String => a == b) (cons "a" nil) (cons "a" nil)
      = true := by
  refine ⟨?_, listEq_refl beq hrefl, listEq_symm beq hsymm,
    listEq_trans beq htrans, by decide⟩
  intro l1 l2
  rw [listEq_iff_forall₂ beq l1 l2, List.forall₂_iff_get]
  exact Iff.rfl

/-- Witness for C6 with `Nat` equality at the list `1 :: 2 :: Nil`. -/
theorem c6_equality_witness :
    listEq (fun a b : Nat => a == b) (cons 1 (cons 2 nil)) (cons 1 (cons 2 nil))
      = true :=
  (c6_equality (fun a b : Nat => a == b)
    (fun a => by simp)
    (fun a b h => by simp at h; simp [h])
    (fun a b c hab hbc => by simp at hab hbc; simp [hab, hbc])).2.1
    (cons 1 (cons 2 nil))

/-- The hash fold is the left fold of the element feed over the element
stream: an order-sensitive combination of the element hashes, and nothing
else, enters the hasher. -/
theorem hashFold_eq_foldl {A H : Type} (hashElem : A → H → H) :
    ∀ (l : BaseList A) (st : H),
      hashFold hashElem st l
        = (iterElems l).foldl (fun s a => hashElem a s) st := by
  intro l
  induction l with
  | Nil => intro st; rfl
  | Cons h t ih => intro st; simp [hashFold, iterElems, List.foldl_cons, ih]

/-- C7: a list's hash is the order-sensitive fold of the element hashes in
head-to-tail order, and two `==`-equal lists drive any hasher from any
starting state to the same final state, provided `==`-equal elements hash
alike (the `Hash`/`Eq` contract for the element type). -/
theorem c7_hash {A H : Type} (beq : A → A → Bool) (hashElem : A → H → H)
    (hcompat : ∀ a b, beq a b = true → ∀ st, hashElem a st = hashElem b st) :
    (∀ (l : BaseList A) (st : H),
      hashFold hashElem st l
        = (iterElems l).foldl (fun s a => hashElem a s) st) ∧
    (∀ l1 l2 : BaseList A, listEq beq l1 l2 = true →
      ∀ st : H, hashFold hashElem st l1 = hashFold hashElem st l2) := by
  refine ⟨hashFold_eq_foldl hashElem, ?_⟩
  intro l1 l2
  induction l1 generalizing l2 with
  | Nil =>
    cases l2 with
    | Nil => intro _ st; rfl
    | Cons h2 t2 => intro h; simp [listEq] at h
  | Cons h1 t1 ih =>
    cases l2 with
    | Nil => intro h; simp [listEq] at h
    | Cons h2 t2 =>
      intro h st
      rw [listEq, Bool.and_eq_true] at h
      rw [hashFold, hashFold, hcompat h1 h2 h.1 st]
      exact ih t2 h.2 (hashElem h2 st)

/-- Witness for C7 with the hasher state `Nat`, feed `st * 31 + a`, at the
list `1 :: 2 :: Nil`. -/
theorem c7_hash_witness :
    hashFold (fun a st : Nat => st * 31 + a) 0 (cons 1 (cons 2 nil))
      = (iterElems (cons 1 (cons 2 (nil : BaseList Nat)))).foldl
          (fun s a => (fun a st : Nat => st * 31 + a) a s) 0 :=
  (c7_hash (fun a b : Nat => a == b) (fun a st : Nat => st * 31 + a)
    (fun a b h st => by simp at h; simp [h])).1
    (cons 1 (cons 2 nil)) 0

/-- C10: the hash feeds only the element hashes, head to tail, with no
length or constructor information: the empty list leaves every hasher state
unchanged, and the nested lists `[[1, 2]]` and `[[1], [2]]` drive every
hasher identically although they are unequal lists. -/
theorem c10_hash_stream {H : Type} (f : Nat → H → H) (st : H) :
    hashFold f st (nil : BaseList Nat) = st ∧
    hashFold (fun l s => hashFold f s l) st
        (cons (cons 1 (cons 2 nil)) nil)
      = hashFold (fun l s => hashFold f s l) st
        (cons (cons 1 nil) (cons (cons 2 nil) nil)) ∧
    listEq (listEq (fun a b : Nat => a == b))
        (cons (cons 1 (cons 2 nil)) nil)
        (cons (cons 1 nil) (cons (cons 2 nil) nil)) = false :=
  ⟨rfl, rfl, by decide⟩

/-- The rendering is the right fold that appends each rendered element
followed by `" :: "`, finishing with `"Nil"`. -/
theorem display_eq_foldr {A : Type} (s : A → String) :
    ∀ l : BaseList A,
      display s l
        = (iterElems l).foldr (fun a r => s a ++ " :: " ++ r) "Nil" := by
  intro l
  induction l with
  | Nil => rfl
  | Cons h t ih => simp [display, iterElems, List.foldr_cons, ih]

/-- C9: the `Display` rendering writes each element head to tail followed by `" :: "`,
terminated by `"Nil"`; the empty list renders as `"Nil"` and the `Nat` list
`3 :: 2 :: 1 :: Nil` renders as `"3 :: 2 :: 1 :: Nil"`. -/
theorem c9_display {A : Type} (s : A → String) (l : BaseList A) :
    display s l
      = (iterElems l).foldr (fun a r => s a ++ " :: " ++ r) "Nil" ∧
    display (fun n : Nat => toString n) (nil : BaseList Nat) = "Nil" ∧
    display (fun n : Nat => toString n) (cons 3 (cons 2 (cons 1 nil)))
      = "3 :: 2 :: 1 :: Nil" :=
  ⟨display_eq_foldr s l, rfl, by decide⟩

/-- Lemma: `cmp` returns `lt` exactly when the element streams are related by the
strict lexicographic order. -/
theorem cmp_eq_lt_iff_lex {A : Type} [LinearOrder A] :
    ∀ l1 l2 : BaseList A, cmp compare l1 l2 = Ordering.lt ↔
      List.Lex (· < ·) (iterElems l1) (iterElems l2) := by
  intro l1 l2
  induction l1 generalizing l2 with
  | Nil =>
    cases l2 with
    | Nil => simp [cmp, iterElems]
    | Cons h2 t2 =>
      exact iff_of_true rfl List.Lex.nil
  | Cons h1 t1 ih =>
    cases l2 with
    | Nil => simp [cmp, iterElems]
    | Cons h2 t2 =>
      rcases lt_trichotomy h1 h2 with hlt | heq | hgt
      · have hc : compare h1 h2 = Ordering.lt := compare_lt_iff_lt.2 hlt
        simp only [cmp, hc, iterElems]
        exact iff_of_true trivial (List.Lex.rel hlt)
      · subst heq
        have hc : compare h1 h1 = Ordering.eq := compare_eq_iff_eq.2 rfl
        simp only [cmp, hc, iterElems]
        rw [List.Lex.cons_iff]
        exact ih t2
      · have hc : compare h1 h2 = Ordering.gt := compare_gt_iff_gt.2 hgt
        simp only [cmp, hc, iterElems]
        constructor
        · intro h; cases h
        · intro hl
          cases hl with
          | cons h => exact absurd hgt (lt_irrefl _)
          | rel h => exact absurd h (not_lt.2 (le_of_lt hgt))

/-- Lemma: `cmp` returns `eq` exactly when the element streams coincide. -/
theorem cmp_eq_eq_iff {A : Type} [LinearOrder A] :
    ∀ l1 l2 : BaseList A, cmp compare l1 l2 = Ordering.eq ↔
      iterElems l1 = iterElems l2 := by
  intro l1 l2
  induction l1 generalizing l2 with
  | Nil =>
    cases l2 with
    | Nil => simp [cmp, iterElems]
    | Cons h2 t2 => simp [cmp, iterElems]
  | Cons h1 t1 ih =>
    cases l2 with
    | Nil => simp [cmp, iterElems]
    | Cons h2 t2 =>
      rcases lt_trichotomy h1 h2 with hlt | heq | hgt
      · have hc : compare h1 h2 = Ordering.lt := compare_lt_iff_lt.2 hlt
        simp [cmp, hc, iterElems, ne_of_lt hlt]
      · subst heq
        have hc : compare h1 h1 = Ordering.eq := compare_eq_iff_eq.2 rfl
        simp [cmp, hc, iterElems]
        exact ih t2
      · have hc : compare h1 h2 = Ordering.gt := compare_gt_iff_gt.2 hgt
        simp [cmp, hc, iterElems, ne_of_gt hgt]

/-- Swapping the arguments of `cmp` swaps the resulting ordering. -/
theorem cmp_swap {A : Type} [LinearOrder A] :
    ∀ l1 l2 : BaseList A,
      cmp compare l2 l1 = (cmp compare l1 l2).swap := by
  intro l1 l2
  induction l1 generalizing l2 with
  | Nil => cases l2 <;> rfl
  | Cons h1 t1 ih =>
    cases l2 with
    | Nil => rfl
    | Cons h2 t2 =>
      rcases lt_trichotomy h1 h2 with hlt | heq | hgt
      · have hc : compare h1 h2 = Ordering.lt := compare_lt_iff_lt.2 hlt
        have hc2 : compare h2 h1 = Ordering.gt := compare_gt_iff_gt.2 hlt
        simp [cmp, hc, hc2, Ordering.swap]
      · subst heq
        have hc : compare h1 h1 = Ordering.eq := compare_eq_iff_eq.2 rfl
        simp only [cmp, hc]
        exact ih t2
      · have hc : compare h1 h2 = Ordering.gt := compare_gt_iff_gt.2 hgt
        have hc2 : compare h2 h1 = Ordering.lt := compare_lt_iff_lt.2 hgt
        simp [cmp, hc, hc2, Ordering.swap]

/-- When every element comparison is `some` of a total comparison,
`partial_cmp` is `some` of `cmp`. -/
theorem partCmp_eq_some_cmp {A : Type} [LinearOrder A] :
    ∀ l1 l2 : BaseList A,
      partCmp (fun a b => some (compare a b)) l1 l2
        = some (cmp compare l1 l2) := by
  intro l1 l2
  induction l1 generalizing l2 with
  | Nil => cases l2 <;> rfl
  | Cons h1 t1 ih =>
    cases l2 with
    | Nil => rfl
    | Cons h2 t2 =>
      cases hc : compare h1 h2 with
      | lt => simp [partCmp, cmp, hc]
      | eq =>
        simp only [partCmp, cmp, hc]
        exact ih t2
      | gt => simp [partCmp, cmp, hc]

/-- C3: the comparison `cmp` is exactly the lexicographic order induced by head-to-tail
iteration — `lt` iff the left stream is lexicographically below the right
(first mismatch decides, a strict prefix is below), `eq` iff the streams
coincide, `gt` iff the right stream is below the left — `partial_cmp`
agrees with `cmp` on totally compared elements, and on the spec's examples
`a = 1 :: Nil`, `b = 2 :: Nil`, `c = 1 :: 2 :: Nil`: `a < b`, `a < c`,
`nil < c`, `a > nil`, and `a` compared with `1 :: Nil` is `Equal`. -/
theorem c3_ordering {A : Type} [LinearOrder A] (l1 l2 : BaseList A) :
    (cmp compare l1 l2 = Ordering.lt ↔
      List.Lex (· < ·) (iterElems l1) (iterElems l2)) ∧
    (cmp compare l1 l2 = Ordering.eq ↔ iterElems l1 = iterElems l2) ∧
    (cmp compare l1 l2 = Ordering.gt ↔
      List.Lex (· < ·) (iterElems l2) (iterElems l1)) ∧
    partCmp (fun a b => some (compare a b)) l1 l2
      = some (cmp compare l1 l2) ∧
    cmp compare (cons (1 : Nat) nil) (cons 2 nil) = Ordering.lt ∧
    cmp compare (cons (1 : Nat) nil) (cons 1 (cons 2 nil)) = Ordering.lt ∧
    cmp compare (nil : BaseList Nat) (cons 1 (cons 2 nil)) = Ordering.lt ∧
    cmp compare (cons (1 : Nat) nil) (nil : BaseList Nat) = Ordering.gt ∧
    cmp compare (cons (1 : Nat) nil) (cons 1 nil) = Ordering.eq := by
  refine ⟨cmp_eq_lt_iff_lex l1 l2, cmp_eq_eq_iff l1 l2, ?_,
    partCmp_eq_some_cmp l1 l2, by decide, by decide, by decide, by decide,
    by decide⟩
  rw [← cmp_eq_lt_iff_lex l2 l1, cmp_swap l1 l2]
  cases cmp compare l1 l2 <;> simp [Ordering.swap]

/-- Witness for C3 at the `Nat` lists `1 :: Nil` and `2 :: Nil`. -/
theorem c3_ordering_witness :
    partCmp (fun a b : Nat => some (compare a b)) (cons 1 nil) (cons 2 nil)
      = some (cmp compare (cons 1 nil) (cons 2 nil)) :=
  (c3_ordering (cons (1 : Nat) nil) (cons 2 nil)).2.2.2.1

end ConsList
